import Mathlib

/-!
Shallow embedding of the feature-extraction core of the phishing-URL backend
(`phishing-backend/extractor.py`) together with the parts of its runtime it
depends on: the relevant fragment of the CPython `urllib.parse.urlparse`
(modelled on CPython 3.10) and the C library function `inet_aton` (modelled on the
glibc/BSD implementation that `socket.inet_aton` wraps).

Strings are represented as `List Char`; Python `len`/indexing counts code
points, which matches `List.length` on the character list.
-/

set_option autoImplicit false
set_option maxRecDepth 8192

namespace Phishing

/-! ## Character classes (ASCII, as used by the source regexes and C code) -/

/-- ASCII decimal digit, the regex class `0-9` and C `isdigit` in the C locale. -/
def isDigitCh (c : Char) : Bool := 48 ≤ c.toNat && c.toNat ≤ 57

/-- ASCII letter, the regex class `A-Za-z`. -/
def isAlphaCh (c : Char) : Bool :=
  (65 ≤ c.toNat && c.toNat ≤ 90) || (97 ≤ c.toNat && c.toNat ≤ 122)

/-- Letter, digit or hyphen: the regex class `[A-Za-z0-9-]`. -/
def isLDHCh (c : Char) : Bool := isAlphaCh c || isDigitCh c || c.toNat == 45

/-- ASCII hexadecimal digit, as consumed by `strtoul` in base 16. -/
def isHexCh (c : Char) : Bool :=
  isDigitCh c || (97 ≤ c.toNat && c.toNat ≤ 102) || (65 ≤ c.toNat && c.toNat ≤ 70)

/-- ASCII octal digit, as consumed by `strtoul` in base 8. -/
def isOctCh (c : Char) : Bool := 48 ≤ c.toNat && c.toNat ≤ 55

/-- C `isspace` in the C locale: space, tab, newline, vertical tab, form feed,
carriage return. -/
def isSpaceCh (c : Char) : Bool := c.toNat == 32 || (9 ≤ c.toNat && c.toNat ≤ 13)

/-- ASCII lower-casing of one character.  The Python `str.lower` is full Unicode,
but in this development it is only applied to URL schemes (which the parser
admits only when they consist of ASCII scheme characters) and to the URL path
when searching for the ASCII substring "https"; on those uses the ASCII map
agrees with Python. -/
def asciiLowerChar (c : Char) : Char :=
  if 65 ≤ c.toNat && c.toNat ≤ 90 then Char.ofNat (c.toNat + 32) else c

/-- Python `str.lower`, restricted as described at `asciiLowerChar`. -/
def asciiLower (s : List Char) : List Char := s.map asciiLowerChar

/-! ## List-of-characters utilities mirroring Python string primitives -/

/-- Decidable prefix test on character lists. -/
def isPrefixList : List Char → List Char → Bool
  | [], _ => true
  | _ :: _, [] => false
  | a :: as, b :: bs => a == b && isPrefixList as bs

/-- Python substring containment `needle in hay`. -/
def containsSub (needle : List Char) : List Char → Bool
  | [] => needle.isEmpty
  | c :: t => isPrefixList needle (c :: t) || containsSub needle t

/-- Python `hay.rfind(needle)`: the largest index at which `needle` occurs,
or `-1` when it does not occur. -/
def rfindSub (needle hay : List Char) : Int :=
  match ((List.range (hay.length + 1)).filter
      (fun i => isPrefixList needle (hay.drop i))).getLast? with
  | some i => (i : Int)
  | none => -1

/-- Python `s.split` at dots: split at every dot, keeping empty pieces; the
result is always nonempty (`[[]]` for the empty string). -/
def splitOnDot : List Char → List (List Char)
  | [] => [[]]
  | c :: t =>
    if c = '.' then [] :: splitOnDot t
    else
      match splitOnDot t with
      | [] => [[c]]
      | h :: r => (c :: h) :: r

/-- Rejoin dot-separated pieces: the inverse of `splitOnDot`. -/
def joinLabs : List (List Char) → List Char
  | [] => []
  | [l] => l
  | l :: ls => l ++ '.' :: joinLabs ls

/-- First index of character `c` in `s` at or after position `start`
(Python `s.find(c, start)`), as an option. -/
def findFrom (c : Char) (s : List Char) (start : Nat) : Option Nat :=
  ((s.drop start).findIdx? (fun x => x == c)).map (· + start)

/-- Last index of character `c` in `s` (Python `s.rfind(c)`), defaulting to 0
when absent; only used under a guard that `c` occurs. -/
def rfindIdx (c : Char) (s : List Char) : Nat :=
  match s.reverse.findIdx? (fun x => x == c) with
  | some k => s.length - 1 - k
  | none => 0

/-! ## The domain validator `is_valid_domain`

The source decides validity with
`re.match(r"^(?=.{1,253}$)(?!-)[A-Za-z0-9-]{1,63}(?<!-)(\.[A-Za-z]{2,})+$", domain)`.

Because none of the character classes in the pattern contains a dot, a match
decomposes the subject uniquely along its dots, so the regex is embedded as a
check on `splitOnDot`:
the first dot-separated label must be 1-63 characters of `[A-Za-z0-9-]` and
neither start nor end with a hyphen (the `(?!-)` look-ahead and `(?<!-)`
look-behind), and there must be one or more further labels, each matching
`[A-Za-z]{2,}`.  The look-ahead `(?=.{1,253}$)` bounds the total length.
One artifact of the Python `$` anchor is kept: `$` also matches just before a
single newline at the end of the subject, so a subject consisting of a match
followed by one final `'\n'` is accepted (`.` in the look-ahead cannot cross a
newline, and the classes cannot match one, so the newline can only be trailing). -/

/-- Drop a single trailing newline, the position at which the Python `$` anchor
is also allowed to match. -/
def stripTrailingNewline (s : List Char) : List Char :=
  if s.getLast? = some '\n' then s.dropLast else s

/-- Match of the regex body (everything except the `$`-before-newline
allowance) against the whole of `t`. -/
def validCore (t : List Char) : Bool :=
  decide (1 ≤ t.length) && decide (t.length ≤ 253) &&
    (match splitOnDot t with
     | [] => false
     | first :: rest =>
       decide (1 ≤ first.length) && decide (first.length ≤ 63) &&
         first.all isLDHCh &&
         !(first.head? == some '-') && !(first.getLast? == some '-') &&
         !rest.isEmpty &&
         rest.all (fun l => decide (2 ≤ l.length) && l.all isAlphaCh))

/-- The validator `is_valid_domain` from `extractor.py` (see the section comment for the
regex-to-structure correspondence). -/
def is_valid_domain (domain : List Char) : Bool :=
  validCore (stripTrailingNewline domain)

/-! ## `inet_aton` (glibc/BSD), as called by `socket.inet_aton`

The loop reads dot-separated numbers in C syntax (`0x` hex, leading-`0`
octal, otherwise decimal) via `strtoul` with base 0, allows at most four
parts, tolerates ASCII white space immediately after the last number, and
finally checks the last number against the bound determined by how many
parts preceded it. -/

/-- Numeric value of a hexadecimal digit character. -/
def hexDigitVal (c : Char) : Nat :=
  if isDigitCh c then c.toNat - 48
  else if 97 ≤ c.toNat && c.toNat ≤ 102 then c.toNat - 87
  else if 65 ≤ c.toNat && c.toNat ≤ 70 then c.toNat - 55
  else 0

/-- Value of a digit string in base `b`. -/
def fromBaseN (b : Nat) (ds : List Char) : Nat :=
  ds.foldl (fun acc c => acc * b + hexDigitVal c) 0

/-- Does the list start with a hexadecimal digit? -/
def headHex : List Char → Bool
  | [] => false
  | c :: _ => isHexCh c

/-- The span `strtoul(cp, &endp, 0)` consumes, with its value: C number
syntax (`0x`/`0X` hex when at least one hex digit follows, a leading `0`
selects octal, otherwise decimal).  Only invoked by `inet_aton` after
checking that the first character is a decimal digit, so the sign/white-space
handling of `strtoul` is never reached and is not modelled. -/
def numSpan (s : List Char) : Nat × List Char :=
  match s with
  | '0' :: c :: rest =>
    if c = 'x' ∨ c = 'X' then
      if headHex rest then
        (fromBaseN 16 (rest.takeWhile isHexCh), rest.dropWhile isHexCh)
      else (0, c :: rest)
    else
      (fromBaseN 8 ((c :: rest).takeWhile isOctCh), (c :: rest).dropWhile isOctCh)
  | ['0'] => (0, [])
  | s => (fromBaseN 10 (s.takeWhile isDigitCh), s.dropWhile isDigitCh)

/-- Bound on the final number of an `inet_aton` subject: with `3 - fuel`
parts already consumed, the last number must fit in the remaining
`fuel + 1` bytes (`0xffffffff`, `0xffffff`, `0xffff`, `0xff`). -/
def maxPart (fuel : Nat) : Nat := 2 ^ (8 * (fuel + 1)) - 1

/-- The parsing loop of glibc `inet_aton`.  `fuel` is the number of
further dots still allowed (the C code rejects a fourth dot, and rejects a
part followed by a dot whose value exceeds `0xff`); it starts at 3.
Returns `true` exactly when the C function reports success. -/
def aton_loop : Nat → List Char → Bool
  | _, [] => false
  | fuel, c :: cs =>
    if !isDigitCh c then false
    else
      let vr := numSpan (c :: cs)
      if 4294967295 < vr.1 then false
      else
        match vr.2 with
        | [] => decide (vr.1 ≤ maxPart fuel)
        | c2 :: rest2 =>
          if c2 = '.' then
            if 255 < vr.1 then false
            else
              match fuel with
              | 0 => false
              | f + 1 => aton_loop f rest2
          else
            isSpaceCh c2 && decide (vr.1 ≤ maxPart fuel)

/-- Success predicate for `inet_aton`: `socket.inet_aton(s)` succeeds (does not
raise) exactly when this returns `true`. -/
def inet_aton (s : List Char) : Bool := aton_loop 3 s

/-! ## The fragment of `urllib.parse.urlparse` the extractor uses

Modelled on CPython 3.10 `urlsplit`/`urlparse`, keeping only the `scheme`,
`netloc` and `path` components (the extractor reads nothing else).  The
`_checknetloc` NFKC check is omitted: it can only reject net locations
containing non-ASCII characters, all of which `is_valid_domain` rejects
anyway. -/

/-- Result of URL parsing: the three components the extractor reads. -/
structure ParseResult where
  scheme : List Char
  netloc : List Char
  path : List Char
  deriving Repr, DecidableEq

/-- Characters the CPython `urlsplit` deletes from the URL before parsing
(tab, carriage return, line feed). -/
def stripBytes (s : List Char) : List Char :=
  s.filter (fun c => !(c == '\t' || c == '\r' || c == '\n'))

/-- The characters allowed in a URL scheme (`urllib.parse.scheme_chars`). -/
def isSchemeChar (c : Char) : Bool :=
  isAlphaCh c || isDigitCh c || c == '+' || c == '-' || c == '.'

/-- The scheme-splitting block of `urlsplit`: find the first `:`; when it is
preceded by a nonempty run of scheme characters, that run (lower-cased) is
the scheme and parsing continues after the colon, otherwise the scheme is
empty and the URL is left whole. -/
def splitScheme (url : List Char) : List Char × List Char :=
  let pre := url.takeWhile (fun c => c != ':')
  let post := url.dropWhile (fun c => c != ':')
  match post with
  | ':' :: r =>
    if pre ≠ [] ∧ pre.all isSchemeChar then (asciiLower pre, r) else ([], url)
  | _ => ([], url)

/-- CPython 3.10 `urlsplit`, restricted to scheme/netloc/path.  Raises
(`Except.error`) on a net location containing `[` without `]` or vice
versa, exactly as the source does. -/
def urlsplit (url0 : List Char) : Except String ParseResult :=
  let url := stripBytes url0
  let sr := splitScheme url
  let scheme := sr.1
  let rest := sr.2
  match rest with
  | '/' :: '/' :: r2 =>
    let netloc := r2.takeWhile (fun c => !(c == '/' || c == '?' || c == '#'))
    let r3 := r2.dropWhile (fun c => !(c == '/' || c == '?' || c == '#'))
    if (netloc.contains '[' && !netloc.contains ']') ||
        (netloc.contains ']' && !netloc.contains '[') then
      .error "Invalid IPv6 URL"
    else
      let noFrag := r3.takeWhile (fun c => c != '#')
      let path := noFrag.takeWhile (fun c => c != '?')
      .ok ⟨scheme, netloc, path⟩
  | _ =>
    let noFrag := rest.takeWhile (fun c => c != '#')
    let path := noFrag.takeWhile (fun c => c != '?')
    .ok ⟨scheme, [], path⟩

/-- Schemes for which `urlparse` separates path parameters
(`urllib.parse.uses_params`). -/
def uses_params : List (List Char) :=
  ["", "ftp", "hdl", "prospero", "http", "imap", "https", "shttp", "rtsp",
   "rtspu", "sip", "sips", "mms", "sftp", "tel"].map String.data

/-- CPython `_splitparams`, keeping only the path part (the parameters are
discarded: the extractor never reads them). -/
def splitparams (path : List Char) : List Char :=
  if path.contains '/' then
    match findFrom ';' path (rfindIdx '/' path) with
    | some i => path.take i
    | none => path
  else
    match path.findIdx? (fun c => c == ';') with
    | some i => path.take i
    | none => path

/-- CPython 3.10 `urlparse`, restricted to scheme/netloc/path. -/
def urlparse (url : List Char) : Except String ParseResult :=
  match urlsplit url with
  | .error e => .error e
  | .ok r =>
    if uses_params.contains r.scheme ∧ r.path.contains ';' then
      .ok ⟨r.scheme, r.netloc, splitparams r.path⟩
    else .ok r

/-! ## The extractor `extract_features_from_url` -/

/-- The argument the source hands to `urlparse`:
`url if "://" in url else "http://" + url`. -/
def withScheme (url : List Char) : List Char :=
  if containsSub "://".data url then url else "http://".data ++ url

/-- The shortener substrings of the regex
`bit\.ly|goo\.gl|shorte\.st|go2l\.ink|x\.co|ow\.ly|t\.co|tinyurl|tr\.im|is\.gd`.
The pattern is an alternation of literals (every dot escaped), so
`re.search` succeeds exactly when one of these occurs as a substring. -/
def shorteners : List (List Char) :=
  ["bit.ly", "goo.gl", "shorte.st", "go2l.ink", "x.co", "ow.ly", "t.co",
   "tinyurl", "tr.im", "is.gd"].map String.data

/-- The 30 feature keys, in the order the source inserts them. -/
def featureKeys : List String :=
  ["having_IP_Address", "URL_Length", "Shortining_Service", "having_At_Symbol",
   "double_slash_redirecting", "Prefix_Suffix", "having_Sub_Domain",
   "SSLfinal_State", "Domain_registeration_length", "Favicon", "port",
   "HTTPS_token", "Request_URL", "URL_of_Anchor", "Links_in_tags", "SFH",
   "Submitting_to_email", "Abnormal_URL", "Redirect", "on_mouseover",
   "RightClick", "popUpWidnow", "Iframe", "age_of_domain", "DNSRecord",
   "web_traffic", "Page_Rank", "Google_Index", "Links_pointing_to_page",
   "Statistical_report"]

/-- The feature dictionary built by the body of `extract_features_from_url`
once the domain has been validated, as an association list in insertion
order.  `url` is the original argument (Python computes `len(url)` and all
substring tests on it, not on the scheme-prefixed copy). -/
def buildFeatures (url : List Char) (parsed : ParseResult) : List (String × Int) :=
  let domain := parsed.netloc
  [("having_IP_Address", if inet_aton domain then -1 else 1),
   ("URL_Length", if url.length < 54 then 1 else if url.length ≤ 75 then 0 else -1),
   ("Shortining_Service", if shorteners.any (fun s => containsSub s url) then -1 else 1),
   ("having_At_Symbol", if url.contains '@' then -1 else 1),
   ("double_slash_redirecting", if 6 < rfindSub "//".data url then -1 else 1),
   ("Prefix_Suffix", if domain.contains '-' then -1 else 1),
   ("having_Sub_Domain",
     if (splitOnDot domain).length ≤ 2 then 1
     else if (splitOnDot domain).length = 3 then 0 else -1),
   ("SSLfinal_State", if asciiLower parsed.scheme = "https".data then 1 else -1),
   ("Domain_registeration_length", -1),
   ("Favicon", 1),
   ("port", if domain.contains ':' then -1 else 1),
   ("HTTPS_token", if containsSub "https".data (asciiLower parsed.path) then -1 else 1),
   ("Request_URL", -1),
   ("URL_of_Anchor", -1),
   ("Links_in_tags", -1),
   ("SFH", -1),
   ("Submitting_to_email", if containsSub "mailto:".data url then -1 else 1),
   ("Abnormal_URL", -1),
   ("Redirect", -1),
   ("on_mouseover", -1),
   ("RightClick", 1),
   ("popUpWidnow", -1),
   ("Iframe", -1),
   ("age_of_domain", -1),
   ("DNSRecord", -1),
   ("web_traffic", -1),
   ("Page_Rank", -1),
   ("Google_Index", 1),
   ("Links_pointing_to_page", -1),
   ("Statistical_report", -1)]

/-- The extractor `extract_features_from_url` from `extractor.py`: parse (prefixing a
scheme when absent), validate the net location, then build the feature
dictionary.  The `ValueError("Invalid domain format")` raise is the
distinguished error value; a parse failure propagates its own message. -/
def extract_features_from_url (url : List Char) :
    Except String (List (String × Int)) :=
  match urlparse (withScheme url) with
  | .error e => .error e
  | .ok parsed =>
    if is_valid_domain parsed.netloc then .ok (buildFeatures url parsed)
    else .error "Invalid domain format"

/-! ## Specification-side predicates for the domain validator

`claimValidDomain` transcribes the description the specification gives of the
validator word for word: every dot-separated label is 1-63 characters of
letters/digits/hyphens with no leading or trailing hyphen, and the final
label is at least 2 characters and alphabetic-only.  `amendedValidDomain`
is the corrected characterization, stated as an existential decomposition
rather than by computation. -/

/-- The validator as the specification describes it (to be compared with
`is_valid_domain`): length 1-253, one or more dot-separated labels, each
label 1-63 characters of letters/digits/hyphens neither starting nor ending
with a hyphen, final label at least 2 characters and alphabetic-only. -/
def claimValidDomain (d : List Char) : Bool :=
  decide (1 ≤ d.length) && decide (d.length ≤ 253) &&
    (splitOnDot d).all (fun l =>
      decide (1 ≤ l.length) && decide (l.length ≤ 63) && l.all isLDHCh &&
        !(l.head? == some '-') && !(l.getLast? == some '-')) &&
    (match (splitOnDot d).getLast? with
     | some last => decide (2 ≤ last.length) && last.all isAlphaCh
     | none => false)

/-- Corrected characterization of `is_valid_domain`: after discarding a
single trailing newline (an artifact of the regex `$` anchor), the string
is a first label of 1-63 letters/digits/hyphens with no hyphen at either
end, followed by one or more further labels each at least 2 characters and
alphabetic-only, with total length at most 253. -/
def amendedValidDomain (d : List Char) : Prop :=
  ∃ (first : List Char) (rest : List (List Char)),
    rest ≠ [] ∧
    stripTrailingNewline d = first ++ (rest.map (fun l => '.' :: l)).flatten ∧
    1 ≤ first.length ∧ first.length ≤ 63 ∧
    (∀ c ∈ first, isLDHCh c = true) ∧
    first.head? ≠ some '-' ∧ first.getLast? ≠ some '-' ∧
    (∀ l ∈ rest, 2 ≤ l.length ∧ ∀ c ∈ l, isAlphaCh c = true) ∧
    (stripTrailingNewline d).length ≤ 253

/-- Characters `strtoul` can consume when `inet_aton` calls it (the first
character is a decimal digit, so no sign or white space is ever consumed). -/
def consumableCh (c : Char) : Bool := isHexCh c || c.toNat == 120 || c.toNat == 88

/-! ## Character-class lemmas -/

theorem isAlphaCh_isLDHCh {c : Char} (h : isAlphaCh c = true) : isLDHCh c = true := by
  simp [isLDHCh, h]

theorem isAlphaCh_not_digit {c : Char} (h : isAlphaCh c = true) :
    isDigitCh c = false := by
  simp only [isAlphaCh, Bool.or_eq_true, Bool.and_eq_true, decide_eq_true_eq] at h
  simp only [isDigitCh, Bool.and_eq_false_iff, decide_eq_false_iff_not, not_le]
  omega

theorem isLDHCh_ne_dot {c : Char} (h : isLDHCh c = true) : c ≠ '.' := by
  intro he; subst he; exact absurd h (by decide)

theorem isLDHCh_ne_colon {c : Char} (h : isLDHCh c = true) : c ≠ ':' := by
  intro he; subst he; exact absurd h (by decide)

theorem isLDHCh_not_space {c : Char} (h : isLDHCh c = true) :
    isSpaceCh c = false := by
  simp only [isLDHCh, isAlphaCh, isDigitCh, Bool.or_eq_true, Bool.and_eq_true,
    decide_eq_true_eq, beq_iff_eq] at h
  simp only [isSpaceCh, Bool.or_eq_false_iff, Bool.and_eq_false_iff,
    decide_eq_false_iff_not, not_le, beq_eq_false_iff_ne, ne_eq]
  omega

theorem isOctCh_isHexCh {c : Char} (h : isOctCh c = true) : isHexCh c = true := by
  simp only [isOctCh, Bool.and_eq_true, decide_eq_true_eq] at h
  simp only [isHexCh, isDigitCh, Bool.or_eq_true, Bool.and_eq_true, decide_eq_true_eq]
  omega

theorem isDigitCh_isHexCh {c : Char} (h : isDigitCh c = true) : isHexCh c = true := by
  simp [isHexCh, h]

/-! ## Lemmas about `splitOnDot` and `joinLabs` -/

theorem splitOnDot_ne_nil (u : List Char) : splitOnDot u ≠ [] := by
  cases u with
  | nil => simp [splitOnDot]
  | cons c t =>
    simp only [splitOnDot]
    split
    · simp
    · split <;> simp

theorem joinLabs_splitOnDot (u : List Char) : joinLabs (splitOnDot u) = u := by
  induction u with
  | nil => rfl
  | cons c t ih =>
    by_cases hc : c = '.'
    · subst hc
      simp only [splitOnDot, if_pos rfl]
      cases h : splitOnDot t with
      | nil => exact absurd h (splitOnDot_ne_nil t)
      | cons hd tl =>
        rw [h] at ih
        simp only [joinLabs]
        cases tl <;> simp_all [joinLabs]
    · simp only [splitOnDot, if_neg hc]
      cases h : splitOnDot t with
      | nil => exact absurd h (splitOnDot_ne_nil t)
      | cons hd tl =>
        rw [h] at ih
        cases tl with
        | nil => simpa [joinLabs] using congrArg (c :: ·) ih
        | cons x xs =>
          simp only [joinLabs] at ih ⊢
          simpa [List.cons_append] using congrArg (c :: ·) ih

theorem splitOnDot_append_dot {a : List Char} (v : List Char) (ha : '.' ∉ a) :
    splitOnDot (a ++ '.' :: v) = a :: splitOnDot v := by
  induction a with
  | nil => simp [splitOnDot]
  | cons c a' ih =>
    have hc : c ≠ '.' := fun he => ha (he ▸ List.mem_cons_self c a')
    have ha' : '.' ∉ a' := fun hm => ha (List.mem_cons_of_mem c hm)
    show splitOnDot (c :: (a' ++ '.' :: v)) = (c :: a') :: splitOnDot v
    simp only [splitOnDot, if_neg hc]
    rw [ih ha']

theorem splitOnDot_no_dot {a : List Char} (ha : '.' ∉ a) : splitOnDot a = [a] := by
  induction a with
  | nil => rfl
  | cons c a' ih =>
    have hc : c ≠ '.' := fun he => ha (he ▸ List.mem_cons_self c a')
    have ha' : '.' ∉ a' := fun hm => ha (List.mem_cons_of_mem c hm)
    simp only [splitOnDot, if_neg hc, ih ha']

theorem joinLabs_cons_eq (first : List Char) (rest : List (List Char)) :
    joinLabs (first :: rest) =
      first ++ (rest.map (fun l => '.' :: l)).flatten := by
  induction rest generalizing first with
  | nil => simp [joinLabs]
  | cons r rs ih => simp [joinLabs, ih r]

theorem splitOnDot_of_decomp (rest : List (List Char)) (first : List Char)
    (h1 : '.' ∉ first) (h2 : ∀ l ∈ rest, '.' ∉ l) :
    splitOnDot (first ++ (rest.map (fun l => '.' :: l)).flatten) = first :: rest := by
  induction rest generalizing first with
  | nil => simpa using splitOnDot_no_dot h1
  | cons r rs ih =>
    have hr : '.' ∉ r := h2 r (List.mem_cons_self r rs)
    have hrs : ∀ l ∈ rs, '.' ∉ l := fun l hl => h2 l (List.mem_cons_of_mem r hl)
    calc splitOnDot (first ++ (((r :: rs).map (fun l => '.' :: l)).flatten))
        = splitOnDot (first ++ '.' :: (r ++ (rs.map (fun l => '.' :: l)).flatten)) := by
          simp
      _ = first :: splitOnDot (r ++ (rs.map (fun l => '.' :: l)).flatten) :=
          splitOnDot_append_dot _ h1
      _ = first :: r :: rs := by rw [ih r hr hrs]

/-! ## Characterization of the validator -/

theorem stripTrailingNewline_decomp (d : List Char) :
    ∃ nl, d = stripTrailingNewline d ++ nl ∧ (nl = [] ∨ nl = ['\n']) := by
  by_cases h : d.getLast? = some '\n'
  · refine ⟨['\n'], ?_, Or.inr rfl⟩
    have hne : d ≠ [] := by
      intro he; subst he; simp at h
    have hlast : d.getLast hne = '\n' := by
      have h2 := List.getLast?_eq_getLast d hne
      rw [h2] at h
      exact Option.some.inj h
    rw [stripTrailingNewline, if_pos h, ← hlast]
    exact (List.dropLast_append_getLast hne).symm
  · exact ⟨[], by simp [stripTrailingNewline, if_neg h], Or.inl rfl⟩

theorem valid_domain_decomp {d : List Char} (h : is_valid_domain d = true) :
    amendedValidDomain d := by
  unfold is_valid_domain validCore at h
  cases hsp : splitOnDot (stripTrailingNewline d) with
  | nil => exact absurd (hsp ▸ h) (by simp)
  | cons first rest =>
    rw [hsp] at h
    simp only [Bool.and_eq_true, decide_eq_true_eq, List.all_eq_true,
      Bool.not_eq_true', beq_eq_false_iff_ne, ne_eq] at h
    obtain ⟨⟨h1, h253⟩, ⟨⟨⟨⟨⟨hf1, hf63⟩, hldh⟩, hhd⟩, hlast⟩, hemp⟩, hrest⟩ := h
    have hjoin : stripTrailingNewline d =
        first ++ (rest.map (fun l => '.' :: l)).flatten := by
      rw [← joinLabs_cons_eq, ← hsp, joinLabs_splitOnDot]
    have hne : rest ≠ [] := by
      intro he; subst he; simp at hemp
    refine ⟨first, rest, hne, hjoin, hf1, hf63, hldh, hhd, hlast, ?_, h253⟩
    intro l hl
    have hl2 := hrest l hl
    simp only [Bool.and_eq_true, decide_eq_true_eq, List.all_eq_true] at hl2
    exact hl2

theorem valid_domain_of_decomp {d : List Char} (h : amendedValidDomain d) :
    is_valid_domain d = true := by
  obtain ⟨first, rest, hne, hdec, hf1, hf63, hldh, hhd, hlast, hrest, h253⟩ := h
  have hdot1 : '.' ∉ first := fun hm => isLDHCh_ne_dot (hldh '.' hm) rfl
  have hdot2 : ∀ l ∈ rest, '.' ∉ l := fun l hl hm =>
    isLDHCh_ne_dot (isAlphaCh_isLDHCh ((hrest l hl).2 '.' hm)) rfl
  unfold is_valid_domain validCore
  rw [hdec, splitOnDot_of_decomp rest first hdot1 hdot2]
  simp only [Bool.and_eq_true, decide_eq_true_eq, List.all_eq_true,
    Bool.not_eq_true', beq_eq_false_iff_ne, ne_eq]
  refine ⟨⟨?_, by simpa [hdec] using h253⟩,
    ⟨⟨⟨⟨⟨hf1, hf63⟩, hldh⟩, hhd⟩, hlast⟩, by simpa using hne⟩, ?_⟩
  · rw [List.length_append]; omega
  · intro l hl
    exact hrest l hl

/-! ## `inet_aton` fails on every string the validator accepts

The chars `strtoul` can consume are hexadecimal digits and the radix
markers `x`/`X`; in particular it never consumes a dot, so the `inet_aton`
loop advances through the subject dot by dot.  On a validator-accepted
string the part after the last dot starts with a letter, which is where
the leading `isdigit` test of the loop fails (any earlier junk already fails
the loop). -/

theorem isHexCh_consumable {c : Char} (h : isHexCh c = true) :
    consumableCh c = true := by
  simp [consumableCh, h]

theorem numSpan_decomp (s : List Char) :
    ∃ t, s = t ++ (numSpan s).2 ∧ ∀ c ∈ t, consumableCh c = true := by
  unfold numSpan
  split
  · rename_i c rest
    by_cases hx : c = 'x' ∨ c = 'X'
    · rw [if_pos hx]
      by_cases hh : headHex rest = true
      · rw [if_pos hh]
        refine ⟨'0' :: c :: rest.takeWhile isHexCh, ?_, ?_⟩
        · simp [List.takeWhile_append_dropWhile]
        · intro a ha
          simp only [List.mem_cons] at ha
          rcases ha with rfl | rfl | ha
          · decide
          · rcases hx with rfl | rfl <;> decide
          · exact isHexCh_consumable (List.mem_takeWhile_imp ha)
      · rw [if_neg hh]
        refine ⟨['0'], rfl, ?_⟩
        intro a ha
        simp only [List.mem_singleton] at ha
        subst ha
        decide
    · rw [if_neg hx]
      refine ⟨'0' :: (c :: rest).takeWhile isOctCh, ?_, ?_⟩
      · simp [List.takeWhile_append_dropWhile]
      · intro a ha
        simp only [List.mem_cons] at ha
        rcases ha with rfl | ha
        · decide
        · exact isHexCh_consumable (isOctCh_isHexCh (List.mem_takeWhile_imp ha))
  · refine ⟨['0'], by simp, ?_⟩
    intro a ha
    simp only [List.mem_singleton] at ha
    subst ha
    decide
  · refine ⟨_, (List.takeWhile_append_dropWhile isDigitCh _).symm, ?_⟩
    intro a ha
    exact isHexCh_consumable (isDigitCh_isHexCh (List.mem_takeWhile_imp ha))

theorem aton_loop_false (labs : List (List Char)) :
    ∀ (nl : List Char) (fuel : Nat), labs ≠ [] →
    (∀ l ∈ labs, l ≠ [] ∧ ∀ c ∈ l, isLDHCh c = true) →
    (∀ L, labs.getLast? = some L → ∃ a t, L = a :: t ∧ isDigitCh a = false) →
    (nl = [] ∨ nl = ['\n']) →
    aton_loop fuel (joinLabs labs ++ nl) = false := by
  induction labs with
  | nil => intro _ _ hne _ _ _; exact absurd rfl hne
  | cons l ls ih =>
    intro nl fuel _ hall hlast hnl
    obtain ⟨hlne, hldh⟩ := hall l (List.mem_cons_self l ls)
    cases ls with
    | nil =>
      obtain ⟨a, t, rfl, hnd⟩ := hlast l rfl
      show aton_loop fuel ((a :: t) ++ nl) = false
      rw [List.cons_append]
      simp [aton_loop, hnd]
    | cons l2 ls2 =>
      obtain ⟨c, l', rfl⟩ : ∃ c l', l = c :: l' := by
        cases l with
        | nil => exact absurd rfl hlne
        | cons c l' => exact ⟨c, l', rfl⟩
      have hjoin : joinLabs ((c :: l') :: l2 :: ls2) ++ nl
          = c :: (l' ++ '.' :: (joinLabs (l2 :: ls2) ++ nl)) := by
        simp [joinLabs, List.append_assoc]
      rw [hjoin]
      by_cases hd : isDigitCh c = true
      case neg =>
        have hd' : isDigitCh c = false := by
          revert hd; cases isDigitCh c <;> simp
        simp [aton_loop, hd']
      case pos =>
        obtain ⟨tc, htc, hcons⟩ :=
          numSpan_decomp (c :: (l' ++ '.' :: (joinLabs (l2 :: ls2) ++ nl)))
        by_cases hov :
            4294967295 < (numSpan (c :: (l' ++ '.' :: (joinLabs (l2 :: ls2) ++ nl)))).1
        · simp [aton_loop, hd, hov]
        · have heq : tc ++ (numSpan (c :: (l' ++ '.' :: (joinLabs (l2 :: ls2) ++ nl)))).2
              = (c :: l') ++ ('.' :: (joinLabs (l2 :: ls2) ++ nl)) := by
            rw [← htc]; simp
          have hcases :
              (numSpan (c :: (l' ++ '.' :: (joinLabs (l2 :: ls2) ++ nl)))).2
                  = '.' :: (joinLabs (l2 :: ls2) ++ nl) ∨
                ∃ wc w', (numSpan (c :: (l' ++ '.' :: (joinLabs (l2 :: ls2) ++ nl)))).2
                    = wc :: w' ∧ wc ∈ (c :: l') := by
            rcases List.append_eq_append_iff.mp heq with ⟨w, hw1, hw2⟩ | ⟨z, hz1, hz2⟩
            · cases w with
              | nil => exact Or.inl (by simpa using hw2)
              | cons wc w' =>
                refine Or.inr ⟨wc, w' ++ '.' :: (joinLabs (l2 :: ls2) ++ nl), ?_, ?_⟩
                · simpa using hw2
                · rw [hw1]
                  exact List.mem_append_right _ (List.mem_cons_self _ _)
            · cases z with
              | nil => exact Or.inl (by simpa using hz2.symm)
              | cons zc z' =>
                exfalso
                have hzc : zc = '.' := by
                  have := congrArg List.head? hz2
                  simpa using this.symm
                have hmem : '.' ∈ tc := by
                  rw [hz1, hzc]
                  exact List.mem_append_right _ (List.mem_cons_self _ _)
                exact absurd (hcons '.' hmem) (by decide)
          rcases hcases with hsh | ⟨wc, w', hsh, hwc⟩
          · by_cases h255 :
                255 < (numSpan (c :: (l' ++ '.' :: (joinLabs (l2 :: ls2) ++ nl)))).1
            · simp [aton_loop, hd, hov, hsh, h255]
            · cases fuel with
              | zero => simp [aton_loop, hd, hov, hsh, h255]
              | succ f =>
                have hrec : aton_loop f (joinLabs (l2 :: ls2) ++ nl) = false := by
                  refine ih nl f (by simp) ?_ ?_ hnl
                  · intro x hx
                    exact hall x (List.mem_cons_of_mem _ hx)
                  · intro L hL
                    refine hlast L ?_
                    rw [List.getLast?_cons_cons]
                    exact hL
                simp [aton_loop, hd, hov, hsh, h255, hrec]
          · have hldh2 : isLDHCh wc = true := hldh wc hwc
            have hnedot : wc ≠ '.' := isLDHCh_ne_dot hldh2
            have hns : isSpaceCh wc = false := isLDHCh_not_space hldh2
            simp [aton_loop, hd, hov, hsh, hnedot, hns]

theorem valid_domain_aton {d : List Char} (h : is_valid_domain d = true) :
    inet_aton d = false := by
  obtain ⟨first, rest, hne, hdec, hf1, _, hldh, _, _, hrest, _⟩ := valid_domain_decomp h
  obtain ⟨nl, hd2, hnl⟩ := stripTrailingNewline_decomp d
  have hd3 : d = joinLabs (first :: rest) ++ nl := by
    rw [hd2, hdec, joinLabs_cons_eq]
  rw [inet_aton, hd3]
  refine aton_loop_false (first :: rest) nl 3 (by simp) ?_ ?_ hnl
  · intro x hx
    rcases List.mem_cons.mp hx with rfl | hx2
    · refine ⟨?_, hldh⟩
      intro he; subst he; simp at hf1
    · obtain ⟨hxl, hxa⟩ := hrest x hx2
      refine ⟨?_, fun c hc => isAlphaCh_isLDHCh (hxa c hc)⟩
      intro he; subst he; simp at hxl
  · intro L hL
    have hLmem : L ∈ rest := by
      cases rest with
      | nil => exact absurd rfl hne
      | cons r rs =>
        rw [List.getLast?_cons_cons] at hL
        obtain ⟨h1, h2⟩ := List.mem_getLast?_eq_getLast (l := r :: rs) (x := L) hL
        rw [h2]
        exact List.getLast_mem h1
    obtain ⟨hLl, hLa⟩ := hrest L hLmem
    cases L with
    | nil => simp at hLl
    | cons a t =>
      exact ⟨a, t, rfl, isAlphaCh_not_digit (hLa a (List.mem_cons_self a t))⟩

/-! ## Extractor plumbing -/

theorem extract_ok_iff (url : List Char) (f : List (String × Int)) :
    extract_features_from_url url = .ok f ↔
      ∃ p, urlparse (withScheme url) = .ok p ∧ is_valid_domain p.netloc = true ∧
        f = buildFeatures url p := by
  unfold extract_features_from_url
  cases h : urlparse (withScheme url) with
  | error e =>
    constructor
    · intro hh; exact Except.noConfusion hh
    · rintro ⟨p', hp', _, _⟩; exact Except.noConfusion hp'
  | ok p =>
    dsimp only []
    by_cases hv : is_valid_domain p.netloc = true
    · rw [if_pos hv]
      constructor
      · intro hh
        exact ⟨p, rfl, hv, (Except.ok.inj hh).symm⟩
      · rintro ⟨p', hp', _, rfl⟩
        obtain rfl := Except.ok.inj hp'
        rfl
    · rw [if_neg hv]
      constructor
      · intro hh; exact Except.noConfusion hh
      · rintro ⟨p', hp', hv', _⟩
        obtain rfl := Except.ok.inj hp'
        exact absurd hv' hv

set_option maxRecDepth 100000 in
theorem buildFeatures_vals (url : List Char) (p : ParseResult) :
    ∀ kv ∈ buildFeatures url p, kv.2 = -1 ∨ kv.2 = 0 ∨ kv.2 = 1 := by
  unfold buildFeatures
  simp only [List.forall_mem_cons, List.forall_mem_nil, and_true]
  repeat' apply And.intro
  all_goals try split_ifs
  all_goals norm_num

theorem valid_domain_no_colon {d : List Char} (h : is_valid_domain d = true) :
    ':' ∉ d := by
  obtain ⟨first, rest, _, hdec, _, _, hldh, _, _, hrest, _⟩ := valid_domain_decomp h
  obtain ⟨nl, hd2, hnl⟩ := stripTrailingNewline_decomp d
  rw [hd2, hdec]
  intro hmem
  rcases List.mem_append.mp hmem with h1 | h2
  · rcases List.mem_append.mp h1 with ha | hb
    · exact isLDHCh_ne_colon (hldh ':' ha) rfl
    · obtain ⟨piece, hp1, hp2⟩ := List.mem_flatten.mp hb
      obtain ⟨l, hl, rfl⟩ := List.mem_map.mp hp1
      rcases List.mem_cons.mp hp2 with heq | hin
      · exact absurd heq (by decide)
      · exact isLDHCh_ne_colon (isAlphaCh_isLDHCh ((hrest l hl).2 ':' hin)) rfl
  · rcases hnl with rfl | rfl
    · simp at h2
    · simp only [List.mem_singleton] at h2
      exact absurd h2 (by decide)

theorem urlsplit_ok_scheme (url0 : List Char) (q : ParseResult)
    (h : urlsplit url0 = .ok q) :
    q.scheme = (splitScheme (stripBytes url0)).1 := by
  unfold urlsplit at h
  dsimp only [] at h
  split at h
  · split at h
    · exact absurd h (by simp)
    · obtain rfl := Except.ok.inj h
      rfl
  · obtain rfl := Except.ok.inj h
    rfl

theorem urlparse_ok_scheme (url0 : List Char) (p : ParseResult)
    (h : urlparse url0 = .ok p) :
    p.scheme = (splitScheme (stripBytes url0)).1 := by
  unfold urlparse at h
  cases hs : urlsplit url0 with
  | error e => rw [hs] at h; exact absurd h (by simp)
  | ok r =>
    rw [hs] at h
    have hr := urlsplit_ok_scheme url0 r hs
    dsimp only [] at h
    split at h
    · obtain rfl := Except.ok.inj h
      exact hr
    · obtain rfl := Except.ok.inj h
      exact hr

/-! ## Claim theorems -/

/-- C1 (counterexample): the description the claim gives of the validator --
"each label is 1-63 characters of letters/digits/hyphens, neither starting
nor ending with a hyphen, and the final label is at least 2 characters and
alphabetic-only" -- accepts "ab.c1.de", but `is_valid_domain` rejects it:
the regex requires every label after the first (not only the final one) to
be alphabetic-only. -/
theorem domain_validator_claim_counterexample :
    claimValidDomain "ab.c1.de".data = true ∧
      is_valid_domain "ab.c1.de".data = false := by
  decide

/-- C1 (amended): `is_valid_domain` returns true exactly when, after
discarding a single trailing newline if present (an artifact of the regex
`$` anchor), the string is a first label of 1-63 letters/digits/hyphens with
no hyphen at either end, followed by one or more further dot-separated
labels, each at least 2 characters and alphabetic-only, with total length at
most 253. -/
theorem domain_validator_characterization (d : List Char) :
    is_valid_domain d = true ↔ amendedValidDomain d :=
  ⟨valid_domain_decomp, valid_domain_of_decomp⟩

/-- C1 (witness): the characterization applied to the concrete accepted
domain "ab.com". -/
theorem domain_validator_characterization_witness :
    amendedValidDomain "ab.com".data :=
  (domain_validator_characterization "ab.com".data).mp (by decide)

/-- C2: whenever extraction succeeds (so the parsed domain passed the
validator), the `having_IP_Address` feature is 1; the -1 branch, reached
only when `inet_aton` accepts the domain, is unreachable because the
validator forces an alphabetic-only final label. -/
theorem having_ip_address_always_one (url : List Char) (f : List (String × Int))
    (h : extract_features_from_url url = .ok f) :
    f.lookup "having_IP_Address" = some 1 := by
  obtain ⟨p, _, hv, rfl⟩ := (extract_ok_iff url f).mp h
  have h1 : (buildFeatures url p).lookup "having_IP_Address"
      = some (if inet_aton p.netloc then -1 else 1) := rfl
  rw [h1, valid_domain_aton hv]
  rfl

/-- C2 (witness): extraction on "http://example.com" succeeds and reports
`having_IP_Address = 1`. -/
theorem having_ip_address_always_one_witness :
    ∃ f, extract_features_from_url "http://example.com".data = .ok f ∧
      f.lookup "having_IP_Address" = some 1 :=
  ⟨_, rfl, having_ip_address_always_one "http://example.com".data _ rfl⟩

/-- C3: whenever extraction succeeds, the result has exactly the 30 fixed
feature keys, in insertion order, and every value lies in {-1, 0, 1}. -/
theorem extractor_keys_and_ranges (url : List Char) (f : List (String × Int))
    (h : extract_features_from_url url = .ok f) :
    f.map Prod.fst = featureKeys ∧ f.length = 30 ∧
      ∀ kv ∈ f, kv.2 = -1 ∨ kv.2 = 0 ∨ kv.2 = 1 := by
  obtain ⟨p, _, _, rfl⟩ := (extract_ok_iff url f).mp h
  exact ⟨rfl, rfl, buildFeatures_vals url p⟩

/-- C3 (witness): the key/range invariant applied to a concrete extraction. -/
theorem extractor_keys_and_ranges_witness :
    ∃ f, extract_features_from_url "http://a-b.com/x".data = .ok f ∧
      f.map Prod.fst = featureKeys ∧ f.length = 30 ∧
      ∀ kv ∈ f, kv.2 = -1 ∨ kv.2 = 0 ∨ kv.2 = 1 :=
  ⟨_, rfl, extractor_keys_and_ranges "http://a-b.com/x".data _ rfl⟩

/-- C4: when the URL parses but its domain fails the validator, extraction
fails with the distinguished "Invalid domain format" error; and when
extraction succeeds the result is always the complete 30-key vector (never a
partial one). -/
theorem invalid_domain_error_and_completeness (url : List Char) :
    (∀ p, urlparse (withScheme url) = .ok p → is_valid_domain p.netloc = false →
      extract_features_from_url url = .error "Invalid domain format") ∧
    (∀ f, extract_features_from_url url = .ok f →
      f.map Prod.fst = featureKeys ∧ f.length = 30) := by
  constructor
  · intro p hp hval
    unfold extract_features_from_url
    rw [hp]
    dsimp only []
    have hnv : ¬ (is_valid_domain p.netloc = true) := by
      rw [hval]; exact Bool.false_ne_true
    rw [if_neg hnv]
  · intro f h
    obtain ⟨p, _, _, rfl⟩ := (extract_ok_iff url f).mp h
    exact ⟨rfl, rfl⟩

/-- C4 (witness): "999" parses (as netloc "999" under the prefixed scheme)
but fails validation, producing exactly the invalid-domain error. -/
theorem invalid_domain_error_and_completeness_witness :
    extract_features_from_url "999".data = .error "Invalid domain format" :=
  (invalid_domain_error_and_completeness "999".data).1
    ⟨"http".data, "999".data, []⟩ rfl rfl

/-- C5: whenever extraction succeeds, `URL_Length` is 1 when the input URL
has fewer than 54 characters, 0 when its length is between 54 and 75
inclusive, and -1 when it exceeds 75. -/
theorem url_length_feature_rule (url : List Char) (f : List (String × Int))
    (h : extract_features_from_url url = .ok f) :
    f.lookup "URL_Length" =
      some (if url.length < 54 then 1 else if url.length ≤ 75 then 0 else -1) := by
  obtain ⟨p, _, _, rfl⟩ := (extract_ok_iff url f).mp h
  rfl

/-- C5 (witness): inputs of length exactly 53, 54 and 76 produce
`URL_Length` values 1, 0 and -1 respectively. -/
theorem url_length_feature_rule_witness :
    (∃ f, extract_features_from_url
        "http://example.com/aaaaaaaaaaaaaaaaaaaaaaaaaaaaaaaaaa".data = .ok f ∧
      f.lookup "URL_Length" = some 1) ∧
    (∃ f, extract_features_from_url
        "http://example.com/aaaaaaaaaaaaaaaaaaaaaaaaaaaaaaaaaaa".data = .ok f ∧
      f.lookup "URL_Length" = some 0) ∧
    (∃ f, extract_features_from_url
        "http://example.com/aaaaaaaaaaaaaaaaaaaaaaaaaaaaaaaaaaaaaaaaaaaaaaaaaaaaaaaaa".data
          = .ok f ∧
      f.lookup "URL_Length" = some (-1)) :=
  ⟨⟨_, rfl, (url_length_feature_rule
      "http://example.com/aaaaaaaaaaaaaaaaaaaaaaaaaaaaaaaaaa".data _ rfl).trans rfl⟩,
   ⟨_, rfl, (url_length_feature_rule
      "http://example.com/aaaaaaaaaaaaaaaaaaaaaaaaaaaaaaaaaaa".data _ rfl).trans rfl⟩,
   ⟨_, rfl, (url_length_feature_rule
      "http://example.com/aaaaaaaaaaaaaaaaaaaaaaaaaaaaaaaaaaaaaaaaaaaaaaaaaaaaaaaaa".data
        _ rfl).trans rfl⟩⟩

/-- C6: whenever extraction succeeds with parse result `p`, the
`having_Sub_Domain` feature is determined by splitting `p.netloc` on dots:
at most 2 labels gives 1, exactly 3 gives 0, more than 3 gives -1. -/
theorem sub_domain_feature_rule (url : List Char) (p : ParseResult)
    (f : List (String × Int))
    (hp : urlparse (withScheme url) = .ok p)
    (h : extract_features_from_url url = .ok f) :
    f.lookup "having_Sub_Domain" =
      some (if (splitOnDot p.netloc).length ≤ 2 then 1
        else if (splitOnDot p.netloc).length = 3 then 0 else -1) := by
  obtain ⟨p2, hp2, _, rfl⟩ := (extract_ok_iff url f).mp h
  rw [hp] at hp2
  obtain rfl := Except.ok.inj hp2
  rfl

/-- C6 (witness): "https://sub.example.com" has the three labels sub,
example, com, so `having_Sub_Domain = 0`. -/
theorem sub_domain_feature_rule_witness :
    ∃ f, extract_features_from_url "https://sub.example.com".data = .ok f ∧
      f.lookup "having_Sub_Domain" = some 0 :=
  ⟨_, rfl, (sub_domain_feature_rule "https://sub.example.com".data
      ⟨"https".data, "sub.example.com".data, []⟩ _ rfl rfl).trans rfl⟩

/-- C7: whenever extraction succeeds with parse result `p`, the
`SSLfinal_State` feature is 1 exactly when the parsed scheme, lower-cased,
is "https", and -1 otherwise. -/
theorem ssl_final_state_rule (url : List Char) (p : ParseResult)
    (f : List (String × Int))
    (hp : urlparse (withScheme url) = .ok p)
    (h : extract_features_from_url url = .ok f) :
    f.lookup "SSLfinal_State" =
      some (if asciiLower p.scheme = "https".data then 1 else -1) := by
  obtain ⟨p2, hp2, _, rfl⟩ := (extract_ok_iff url f).mp h
  rw [hp] at hp2
  obtain rfl := Except.ok.inj hp2
  rfl

/-- C7 (witness): "https://sub.example.com" yields `SSLfinal_State = 1`. -/
theorem ssl_final_state_rule_witness :
    ∃ f, extract_features_from_url "https://sub.example.com".data = .ok f ∧
      f.lookup "SSLfinal_State" = some 1 :=
  ⟨_, rfl, (ssl_final_state_rule "https://sub.example.com".data
      ⟨"https".data, "sub.example.com".data, []⟩ _ rfl rfl).trans rfl⟩

/-- C8: whenever extraction succeeds, `Shortining_Service` is -1 exactly
when the URL contains one of the ten fixed shortener substrings
(case-sensitively, dots literal), and 1 otherwise. -/
theorem shortening_service_rule (url : List Char) (f : List (String × Int))
    (h : extract_features_from_url url = .ok f) :
    f.lookup "Shortining_Service" =
      some (if shorteners.any (fun s => containsSub s url) then -1 else 1) := by
  obtain ⟨p, _, _, rfl⟩ := (extract_ok_iff url f).mp h
  rfl

/-- C8 (witness): "http://x.co/abc" contains the shortener substring "x.co"
so the feature is -1, and "http://example.com/abc" contains none so it
is 1. -/
theorem shortening_service_rule_witness :
    (∃ f, extract_features_from_url "http://x.co/abc".data = .ok f ∧
      f.lookup "Shortining_Service" = some (-1)) ∧
    (∃ f, extract_features_from_url "http://example.com/abc".data = .ok f ∧
      f.lookup "Shortining_Service" = some 1) :=
  ⟨⟨_, rfl, (shortening_service_rule "http://x.co/abc".data _ rfl).trans rfl⟩,
   ⟨_, rfl, (shortening_service_rule "http://example.com/abc".data _ rfl).trans rfl⟩⟩

/-- C9: whenever extraction succeeds, the `port` feature is 1: the -1
branch requires a colon in the domain-authority string, which the validator
(letters/digits/hyphens/dots only) never accepts. -/
theorem port_feature_always_one (url : List Char) (f : List (String × Int))
    (h : extract_features_from_url url = .ok f) :
    f.lookup "port" = some 1 := by
  obtain ⟨p, _, hv, rfl⟩ := (extract_ok_iff url f).mp h
  have hnc : ':' ∉ p.netloc := valid_domain_no_colon hv
  have h1 : (buildFeatures url p).lookup "port"
      = some (if p.netloc.contains ':' then -1 else 1) := rfl
  rw [h1]
  simp [hnc]

/-- C9 (witness): extraction on "http://example.com" reports `port = 1`. -/
theorem port_feature_always_one_witness :
    ∃ f, extract_features_from_url "http://example.com".data = .ok f ∧
      f.lookup "port" = some 1 :=
  ⟨_, rfl, port_feature_always_one "http://example.com".data _ rfl⟩

/-- C10: for an input without "://", the extractor prefixes "http://"
before parsing, so on success the parsed scheme is "http" and
`SSLfinal_State` is -1. -/
theorem no_scheme_implies_ssl_negative (url : List Char) (f : List (String × Int))
    (hns : containsSub "://".data url = false)
    (h : extract_features_from_url url = .ok f) :
    f.lookup "SSLfinal_State" = some (-1) := by
  obtain ⟨p, hp, _, rfl⟩ := (extract_ok_iff url f).mp h
  have hws : withScheme url = "http://".data ++ url := by
    unfold withScheme
    rw [hns]
    simp
  rw [hws] at hp
  have hscheme : p.scheme = "http".data := by
    have h2 := urlparse_ok_scheme _ p hp
    rw [h2]
    rfl
  have h1 : (buildFeatures url p).lookup "SSLfinal_State"
      = some (if asciiLower p.scheme = "https".data then 1 else -1) := rfl
  rw [h1, hscheme, if_neg (by decide)]

/-- C10 (witness): "example.com/path" has no "://", and extraction reports
`SSLfinal_State = -1`. -/
theorem no_scheme_implies_ssl_negative_witness :
    ∃ f, extract_features_from_url "example.com/path".data = .ok f ∧
      f.lookup "SSLfinal_State" = some (-1) :=
  ⟨_, rfl, no_scheme_implies_ssl_negative "example.com/path".data _ (by decide) rfl⟩


end Phishing
